import Mathlib

/-!
Shallow embedding of the Dolev-Strong protocol simulator engine.

The engine lives in the repository's `App` component: `initializeProtocol`,
`executeRound0`, `executeNextRound` and `completeProtocol`, together with the
property checkers `checkAgreement` / `checkValidity` of
`ProtocolProperties.tsx`.  JavaScript `Map<number, number>` values are
modelled as association lists in insertion order, JavaScript `Set` values as
duplicate-free lists in insertion order.  The UI-only `position` field of a
node is omitted.  The source stores a node's decision as `number | null`,
using `null` both for "not yet finalized" and for the ⊥ decision; the model
separates the two as `Option (Option Nat)` (`none` = not yet finalized,
`some none` = ⊥) so that "finalize has assigned a decision" is expressible.
The single use of `Math.random()` (a Byzantine node picking among several
convinced values at finalization) is modelled by an explicit index-picking
parameter `pickIdx`.
-/

namespace DolevStrong

/-- A signed message in transit, mirroring the `Message` interface of the
source (`value`, ordered signature list, sender, addressee, round, id). -/
structure Message where
  value : Nat
  signatures : List Nat
  fromNode : Nat
  toNode : Nat
  round : Nat
  id : String
deriving DecidableEq, Repr

/-- The `convincedValues: Map<number, number>` of a node: value ↦ round first
convinced, kept in insertion order. -/
abbrev ConvMap := List (Nat × Nat)

/-- `Map.has`. -/
def mapHas (m : ConvMap) (k : Nat) : Bool :=
  (m.lookup k).isSome

/-- `Map.set`: update in place if the key exists, append otherwise. -/
def mapSet (m : ConvMap) (k v : Nat) : ConvMap :=
  if mapHas m k then m.map (fun p => if p.1 = k then (k, v) else p)
  else m ++ [(k, v)]

/-- `Array.from(map.keys())` in insertion order. -/
def mapKeys (m : ConvMap) : List Nat :=
  m.map Prod.fst

/-- `[...new Set(xs)].length`: the number of distinct entries of a list. -/
def uniqueCount (l : List Nat) : Nat :=
  l.dedup.length

/-- The `Node` interface of the source (`position` omitted; `finalDecision`
uses `none` for "unset", `some d` once `completeProtocol` has assigned the
decision `d : Option Nat`, where the inner `none` is ⊥). -/
structure Node where
  id : Nat
  isSender : Bool
  isByzantine : Bool
  convincedValues : ConvMap
  receivedMessages : List Message
  finalDecision : Option (Option Nat)
deriving DecidableEq, Repr

/-- The engine-relevant part of the `App` component state. -/
structure ProtocolState where
  numNodes : Nat
  numByzantine : Nat
  senderValue : Nat
  currentRound : Nat
  nodes : List Node
  allMessages : List Message
  protocolComplete : Bool
deriving DecidableEq, Repr

/-- The `byzSnapshot` fix-up of `initializeProtocol`: keep the selected ids
below `n`, then add the lowest-numbered ids while the set is smaller than
`f` (the `while (byzSnapshot.size < numByzantine && idx < numNodes)` loop). -/
def padByz (sel : List Nat) (n f : Nat) : List Nat :=
  let base := (sel.filter (fun i => i < n)).dedup
  (List.range n).foldl
    (fun acc i =>
      if acc.length < f then (if i ∈ acc then acc else acc ++ [i]) else acc)
    base

/-- `initializeProtocol`: build the `n` nodes (id `i`, sender iff `i = 0`,
Byzantine iff in the padded snapshot, empty conviction map and inbox, no
decision), reset messages, round counter and completion flag. -/
def initializeProtocol (n f sv : Nat) (sel : List Nat) : ProtocolState :=
  let byz := padByz sel n f
  { numNodes := n
    numByzantine := f
    senderValue := sv
    currentRound := 0
    nodes := (List.range n).map fun i =>
      { id := i
        isSender := i == 0
        isByzantine := byz.contains i
        convincedValues := []
        receivedMessages := []
        finalDecision := none }
    allMessages := []
    protocolComplete := false }

/-- The value the round-0 sender transmits to node `i`: the Byzantine sender
deviates (by `+1`) towards node 1 only; an honest sender always sends its
broadcast value. -/
def round0Value (senderByz : Bool) (sv i : Nat) : Nat :=
  if senderByz then (if i = 1 then sv + 1 else sv) else sv

/-- The round-0 broadcast message from the sender to node `i`. -/
def mkRound0Msg (senderByz : Bool) (sv i : Nat) : Message :=
  let v := round0Value senderByz sv i
  { value := v
    signatures := [0]
    fromNode := 0
    toNode := i
    round := 0
    id := s!"r0-n0-to-n{i}-v{v}" }

/-- The first half of `executeRound0` (lines 346-410): the sender emits one
message per non-sender node `i ∈ [1, n)`, convinces itself of its own value,
and each addressed recipient stores its single round-0 message and becomes
convinced of the received value at round 0. -/
def round0Broadcast (s : ProtocolState) : ProtocolState :=
  let senderByz := match s.nodes.head? with
    | some nd => nd.isByzantine
    | none => false
  let newMessages :=
    (List.range' 1 (s.numNodes - 1)).map (mkRound0Msg senderByz s.senderValue)
  let sv := s.senderValue
  let updatedNodes := s.nodes.map fun node =>
    if node.id = 0 then
      { node with convincedValues := [(sv, 0)] }
    else
      match newMessages.find? (fun m => m.toNode == node.id) with
      | some m =>
          { node with
              receivedMessages := [m]
              convincedValues := [(m.value, 0)] }
      | none => node
  { s with nodes := updatedNodes, allMessages := newMessages }

/-- The echo a node emits in the round-0 echo phase, addressed to node `i`:
the first convinced value, with chain `[0]` for the sender and `[0, id]` for
every other node. -/
def mkRound0Echo (nid v i : Nat) : Message :=
  { value := v
    signatures := if nid = 0 then [0] else [0, nid]
    fromNode := nid
    toNode := i
    round := 0
    id := s!"r0-n{nid}-to-n{i}-v{v}" }

/-- The second half of `executeRound0` (the inner `setTimeout`): every node
with a nonempty conviction map echoes its first convinced value to every
other node; the echoes are appended to the global log and to each addressed
recipient's inbox, and the round counter becomes 1. -/
def round0EchoPhase (s : ProtocolState) : ProtocolState :=
  let echoes := s.nodes.flatMap fun node =>
    match mapKeys node.convincedValues with
    | [] => []
    | v :: _ =>
        (List.range s.numNodes).filterMap fun i =>
          if i = node.id then none else some (mkRound0Echo node.id v i)
  { s with
      allMessages := s.allMessages ++ echoes
      nodes := s.nodes.map fun node =>
        { node with
            receivedMessages :=
              node.receivedMessages ++
                echoes.filter (fun m => m.toNode == node.id) }
      currentRound := 1 }

/-- `executeRound0`: broadcast phase followed by the echo phase. -/
def executeRound0 (s : ProtocolState) : ProtocolState :=
  round0EchoPhase (round0Broadcast s)

/-- The first pass of `executeNextRound` for one node (the source mutates
only the node's own entry of `updatedNodes` here, so the pass decomposes per
node): scan the inbox in order; skip a message whose value is already
convinced; a Byzantine node is merely marked as echoing; an honest node
becomes convinced (and marked as echoing) when the chain starts with the
sender's signature and carries at least `t+1` distinct signatures.  The
accumulator is the node's conviction map plus its `nodesThatWillEcho`
mark; `convictStep` processes one inbox message. -/
def convictStep (t : Nat) (byz : Bool) (acc : ConvMap × Bool) (msg : Message) :
    ConvMap × Bool :=
  if mapHas acc.1 msg.value then acc
  else if byz then (acc.1, true)
  else if msg.signatures.head? != some 0 then acc
  else if t + 1 ≤ uniqueCount msg.signatures then
    (mapSet acc.1 msg.value t, true)
  else acc

/-- The whole first pass for one node: fold `convictStep` over the inbox. -/
def convictNode (t : Nat) (node : Node) : ConvMap × Bool :=
  node.receivedMessages.foldl (convictStep t node.isByzantine)
    (node.convincedValues, false)

/-- The signature chain of an echo: the sender re-signs with `[0]`, any other
node extends the convincing message's chain with its own id, or falls back to
`[0, id]` when no convincing message exists. -/
def mkEchoSigs (nid : Nat) (cm : Option Message) : List Nat :=
  if nid = 0 then [0]
  else
    match cm with
    | some c => c.signatures ++ [nid]
    | none => [0, nid]

/-- The second pass of `executeNextRound` for one echoing node: for every
value in its (updated) conviction map, look in the (pre-round) inbox for a
message with that value whose chain starts with the sender; if one exists —
or the node is the sender, which may echo without having received — emit one
echo per other node with the chain built by `mkEchoSigs`. -/
def echoesForNode (t n : Nat) (node : Node) (conv : ConvMap) : List Message :=
  (mapKeys conv).flatMap fun v =>
    let cm := node.receivedMessages.find?
      (fun m => m.value == v && m.signatures.head? == some 0)
    if cm.isSome || node.id == 0 then
      (List.range n).filterMap fun i =>
        if i = node.id then none
        else
          let nid := node.id
          some { value := v
                 signatures := mkEchoSigs node.id cm
                 fromNode := node.id
                 toNode := i
                 round := t
                 id := s!"r{t}-n{nid}-to-n{i}-v{v}" }
    else []

/-- Rebuild the node table after a round: node at position `i` gets its
updated conviction map, and the round's echoes addressed to position `i`
(the source pushes into `updatedNodes[i]`) appended to its inbox. -/
def rebuildNodes (echoes : List Message) : Nat → List (Node × ConvMap × Bool) → List Node
  | _, [] => []
  | i, r :: rs =>
      { r.1 with
          convincedValues := r.2.1
          receivedMessages :=
            r.1.receivedMessages ++ echoes.filter (fun m => m.toNode == i) }
        :: rebuildNodes echoes (i + 1) rs

/-- The honest decision rule of `completeProtocol`: the unique convinced
value when there is exactly one, ⊥ otherwise. -/
def honestDecision (keys : List Nat) : Option Nat :=
  match keys with
  | [v] => some v
  | _ => none

/-- The Byzantine decision rule of `completeProtocol`: the unique convinced
value when there is one, ⊥ when there is none, and an arbitrarily picked
member (`Math.floor(Math.random() * length)` modelled by the index picker
`pickIdx`, reduced modulo the length) when there are several. -/
def byzDecision (pickIdx : List Nat → Nat) (keys : List Nat) : Option Nat :=
  match keys with
  | [] => none
  | [v] => some v
  | _ => some (keys.getD (pickIdx keys % keys.length) 0)

/-- `completeProtocol`: assign every node its final decision (honest nodes by
`honestDecision`, Byzantine nodes by `byzDecision`) and mark the protocol
complete. -/
def completeProtocol (pickIdx : List Nat → Nat) (s : ProtocolState) : ProtocolState :=
  { s with
      nodes := s.nodes.map fun node =>
        let keys := mapKeys node.convincedValues
        if node.isByzantine then
          { node with finalDecision := some (byzDecision pickIdx keys) }
        else
          { node with finalDecision := some (honestDecision keys) }
      protocolComplete := true }

/-- The first pass of a round over the whole node table: each node paired
with its `convictNode` outcome. -/
def roundResults (s : ProtocolState) : List (Node × ConvMap × Bool) :=
  s.nodes.map fun node => (node, convictNode s.currentRound node)

/-- The echo messages produced by the second pass of a round, in generation
order: every node that newly became convinced or is Byzantine contributes
`echoesForNode` on its updated conviction map. -/
def roundEchoes (s : ProtocolState) : List Message :=
  (roundResults s).flatMap fun r =>
    if r.2.2 || r.1.isByzantine then
      echoesForNode s.currentRound s.numNodes r.1 r.2.1
    else []

/-- `executeNextRound`: with `t` the current round and `f` the Byzantine
count, a call past round `f+1` just finalizes (once); otherwise the
conviction pass runs on every node, every node that newly became convinced
or is Byzantine echoes all its convinced values, the echoes are appended to
the log and the addressed inboxes, and either the round counter advances
(`t < f+1`) or the protocol finalizes (`t = f+1`). -/
def executeNextRound (pickIdx : List Nat → Nat) (s : ProtocolState) : ProtocolState :=
  let t := s.currentRound
  let f := s.numByzantine
  if f + 1 < t then
    if s.protocolComplete then s else completeProtocol pickIdx s
  else
    let s' := { s with
                  nodes := rebuildNodes (roundEchoes s) 0 (roundResults s)
                  allMessages := s.allMessages ++ roundEchoes s }
    if f + 1 ≤ t then completeProtocol pickIdx s' else { s' with currentRound := t + 1 }

/-- The status values reported by the property checkers. -/
inductive PropStatus where
  | satisfied
  | violated
  | pending
  | na
deriving DecidableEq, Repr

/-- The decision value the checkers read off a node: the source reads
`finalDecision : number | null` directly; in the model the two `Option`
layers collapse back to the source's `null`-conflating view. -/
def readDecision (node : Node) : Option Nat :=
  node.finalDecision.join

/-- `checkAgreement` of `ProtocolProperties.tsx`: pending before completion;
over the honest nodes (sender included), satisfied when all decisions agree,
otherwise violated exactly when two or more distinct non-⊥ decisions
appear. -/
def checkAgreement (protocolComplete : Bool) (nodes : List Node) : PropStatus :=
  if !protocolComplete then .pending
  else
    let honestNodes := nodes.filter fun n => !n.isByzantine
    if honestNodes.isEmpty then .satisfied
    else
      let decisions := honestNodes.map readDecision
      let uniqueDecisions := decisions.dedup
      if uniqueDecisions.length ≤ 1 then .satisfied
      else
        let nonNullDecisions := decisions.filter fun d => d != none
        let uniqueNonNull := nonNullDecisions.dedup
        if 1 < uniqueNonNull.length then .violated
        else .satisfied

/-- `checkValidity` of `ProtocolProperties.tsx`: pending before completion;
not applicable when the sender is Byzantine; otherwise satisfied iff every
honest node (sender included) decided the sender's broadcast value. -/
def checkValidity (protocolComplete senderIsByzantine : Bool) (sv : Nat)
    (nodes : List Node) : PropStatus :=
  if !protocolComplete then .pending
  else if senderIsByzantine then .na
  else
    let honestNodes := nodes.filter fun n => !n.isByzantine
    if honestNodes.isEmpty then .satisfied
    else if honestNodes.all (fun n => readDecision n == some sv) then .satisfied
    else .violated

/-! ### Association-list lemmas -/

theorem lookup_cons_pair (p : Nat × Nat) (l : ConvMap) (k : Nat) :
    ((p :: l).lookup k) = if k = p.1 then some p.2 else l.lookup k := by
  cases p with
  | mk a b =>
      simp only [List.lookup]
      by_cases h : k = a
      · simp [h]
      · simp [h, BEq.beq]

theorem lookup_append_pair (l₁ l₂ : ConvMap) (k : Nat) :
    ((l₁ ++ l₂).lookup k) = ((l₁.lookup k).or (l₂.lookup k)) := by
  induction l₁ with
  | nil => simp [List.lookup]
  | cons p rest ih =>
      simp only [List.cons_append, lookup_cons_pair, ih]
      by_cases h : k = p.1 <;> simp [h]

theorem mem_mapKeys_iff (m : ConvMap) (v : Nat) :
    v ∈ mapKeys m ↔ (m.lookup v).isSome := by
  induction m with
  | nil => simp [mapKeys, List.lookup]
  | cons p rest ih =>
      simp only [mapKeys, List.map_cons, List.mem_cons, lookup_cons_pair]
      by_cases h : v = p.1 <;> simp [h, ih, mapKeys]

theorem lookup_mapSet_self (m : ConvMap) (k t : Nat) (h : mapHas m k = false) :
    (mapSet m k t).lookup k = some t := by
  have hl : m.lookup k = none := by
    unfold mapHas at h
    exact Option.not_isSome_iff_eq_none.mp (by simp [h])
  simp [mapSet, mapHas, hl, lookup_append_pair, lookup_cons_pair]

theorem lookup_mapSet_other (m : ConvMap) (k t v : Nat) (h : mapHas m k = false)
    (hne : k ≠ v) : (mapSet m k t).lookup v = m.lookup v := by
  have hvk : ¬ v = k := fun hv => hne hv.symm
  simp only [mapSet, h, Bool.false_eq_true, if_false, lookup_append_pair,
    lookup_cons_pair, List.lookup_nil, hvk]
  cases m.lookup v <;> rfl

/-! ### Conviction-pass lemmas -/

theorem convict_fold_byz (t : Nat) (msgs : List Message) :
    ∀ (conv : ConvMap) (e : Bool),
      ((msgs.foldl (convictStep t true) (conv, e)).1) = conv := by
  induction msgs with
  | nil => intro conv e; rfl
  | cons m rest ih =>
      intro conv e
      simp only [List.foldl_cons]
      by_cases h : mapHas conv m.value
      · rw [show convictStep t true (conv, e) m = (conv, e) from by
          simp [convictStep, h]]
        exact ih conv e
      · rw [show convictStep t true (conv, e) m = (conv, true) from by
          simp [convictStep, h]]
        exact ih conv true

theorem convict_fold_mono (t : Nat) (byz : Bool) (v r : Nat) (msgs : List Message) :
    ∀ (conv : ConvMap) (e : Bool), conv.lookup v = some r →
      ((msgs.foldl (convictStep t byz) (conv, e)).1).lookup v = some r := by
  induction msgs with
  | nil => intro conv e h; exact h
  | cons m rest ih =>
      intro conv e h
      simp only [List.foldl_cons]
      have hstep : ((convictStep t byz (conv, e) m).1).lookup v = some r := by
        unfold convictStep
        by_cases h1 : mapHas conv m.value = true
        · simp [h1, h]
        · have h1' : mapHas conv m.value = false := by simpa using h1
          by_cases hb : byz = true
          · simp [h1', hb, h]
          · have hb' : byz = false := by simpa using hb
            by_cases h3 : m.signatures.head? = some 0
            · by_cases h4 : t + 1 ≤ uniqueCount m.signatures
              · have hne : m.value ≠ v := by
                  intro hv
                  rw [hv] at h1'
                  simp [mapHas, h] at h1'
                simp [h1', hb', h3, h4,
                  lookup_mapSet_other conv m.value t v h1' hne, h]
              · simp [h1', hb', h3, h4, h]
            · have h3' : (m.signatures.head? != some 0) = true := by
                simp [bne_iff_ne, h3]
              simp [h1', hb', h3', h]
      rcases hs : convictStep t byz (conv, e) m with ⟨conv', e'⟩
      rw [hs] at hstep
      exact ih conv' e' hstep

theorem exists_mem_cons_of_not_head {α : Type} {P : α → Prop} {m : α} {rest : List α}
    (hPm : ¬ P m) : (∃ x ∈ m :: rest, P x) ↔ (∃ x ∈ rest, P x) := by
  constructor
  · rintro ⟨x, hx, hPx⟩
    rcases List.mem_cons.mp hx with rfl | hx'
    · exact absurd hPx hPm
    · exact ⟨x, hx', hPx⟩
  · rintro ⟨x, hx, hPx⟩
    exact ⟨x, List.mem_cons_of_mem _ hx, hPx⟩

/-- Characterization of the honest conviction pass: scanning the inbox
leaves an already-present value's entry unchanged, and otherwise records
round `t` exactly when some inbox message carries the value with a
sender-first chain of at least `t+1` distinct signers. -/
theorem convict_fold_lookup (t v : Nat) (msgs : List Message) :
    ∀ (conv : ConvMap) (e : Bool),
      (((msgs.foldl (convictStep t false) (conv, e)).1).lookup v) =
        if (conv.lookup v).isSome then conv.lookup v
        else if ∃ m ∈ msgs, m.value = v ∧ m.signatures.head? = some 0 ∧
                t + 1 ≤ uniqueCount m.signatures then some t
        else none := by
  induction msgs with
  | nil =>
      intro conv e
      by_cases h : (conv.lookup v).isSome
      · simp [h]
      · simp [h, Option.not_isSome_iff_eq_none.mp h]
  | cons m rest ih =>
      intro conv e
      simp only [List.foldl_cons]
      by_cases h1 : mapHas conv m.value = true
      · have hstep : convictStep t false (conv, e) m = (conv, e) := by
          simp [convictStep, h1]
        rw [hstep, ih conv e]
        by_cases h2 : (conv.lookup v).isSome
        · simp [h2]
        · have hPm : ¬ (m.value = v ∧ m.signatures.head? = some 0 ∧
              t + 1 ≤ uniqueCount m.signatures) := by
            rintro ⟨hv, -, -⟩
            rw [hv] at h1
            exact h2 (by simpa [mapHas] using h1)
          simp [h2, hPm]
      · have h1' : mapHas conv m.value = false := by simpa using h1
        have hnone : conv.lookup m.value = none := by
          unfold mapHas at h1'
          exact Option.not_isSome_iff_eq_none.mp (by simp [h1'])
        by_cases h3 : m.signatures.head? = some 0
        · by_cases h4 : t + 1 ≤ uniqueCount m.signatures
          · have hstep : convictStep t false (conv, e) m =
                (mapSet conv m.value t, true) := by
              simp [convictStep, h1', h3, h4]
            rw [hstep, ih _ _]
            by_cases h5 : m.value = v
            · subst h5
              have hset : (mapSet conv m.value t).lookup m.value = some t :=
                lookup_mapSet_self conv m.value t h1'
              simp [hset, hnone, h3, h4]
            · have hset : (mapSet conv m.value t).lookup v = conv.lookup v :=
                lookup_mapSet_other conv m.value t v h1' h5
              rw [hset]
              by_cases h2 : (conv.lookup v).isSome
              · simp [h2]
              · have hPm : ¬ (m.value = v ∧ m.signatures.head? = some 0 ∧
                    t + 1 ≤ uniqueCount m.signatures) := fun hp => h5 hp.1
                simp [h2, hPm]
          · have hstep : convictStep t false (conv, e) m = (conv, e) := by
              simp [convictStep, h1', h3, h4]
            rw [hstep, ih conv e]
            by_cases h2 : (conv.lookup v).isSome
            · simp [h2]
            · have hPm : ¬ (m.value = v ∧ m.signatures.head? = some 0 ∧
                  t + 1 ≤ uniqueCount m.signatures) := fun hp => h4 hp.2.2
              simp [h2, hPm]
        · have h3' : (m.signatures.head? != some 0) = true := by
            simp [bne_iff_ne, h3]
          have hstep : convictStep t false (conv, e) m = (conv, e) := by
            simp [convictStep, h1', h3']
          rw [hstep, ih conv e]
          by_cases h2 : (conv.lookup v).isSome
          · simp [h2]
          · have hPm : ¬ (m.value = v ∧ m.signatures.head? = some 0 ∧
                t + 1 ≤ uniqueCount m.signatures) := fun hp => h3 hp.2.1
            simp [h2, hPm]

/-- The honest conviction pass, read off `convictNode`. -/
theorem convictNode_lookup_honest (t v : Nat) (node : Node)
    (hB : node.isByzantine = false) :
    (((convictNode t node).1).lookup v) =
      if (node.convincedValues.lookup v).isSome then node.convincedValues.lookup v
      else if ∃ m ∈ node.receivedMessages, m.value = v ∧
              m.signatures.head? = some 0 ∧ t + 1 ≤ uniqueCount m.signatures then some t
      else none := by
  unfold convictNode
  rw [hB]
  exact convict_fold_lookup t v node.receivedMessages node.convincedValues false

/-- A Byzantine node's conviction map is untouched by the conviction pass. -/
theorem convictNode_byz (t : Nat) (node : Node) (hB : node.isByzantine = true) :
    (convictNode t node).1 = node.convincedValues := by
  unfold convictNode
  rw [hB]
  exact convict_fold_byz t node.receivedMessages node.convincedValues false

/-! ### Round-step access lemmas -/

theorem rebuildNodes_getElem? (e : List Message) :
    ∀ (rs : List (Node × ConvMap × Bool)) (i j : Nat),
      (rebuildNodes e i rs)[j]? = (rs[j]?).map fun r =>
        { r.1 with
            convincedValues := r.2.1
            receivedMessages :=
              r.1.receivedMessages ++ e.filter (fun m => m.toNode == i + j) } := by
  intro rs
  induction rs with
  | nil => intro i j; simp [rebuildNodes]
  | cons r rest ih =>
      intro i j
      cases j with
      | zero => simp [rebuildNodes]
      | succ j' =>
          simp only [rebuildNodes, List.getElem?_cons_succ, ih (i + 1) j']
          have : i + 1 + j' = i + (j' + 1) := by omega
          rw [this]

theorem completeProtocol_getElem? (pickIdx : List Nat → Nat) (s : ProtocolState)
    (j : Nat) :
    (completeProtocol pickIdx s).nodes[j]? = (s.nodes[j]?).map fun node =>
      if node.isByzantine then
        { node with
            finalDecision := some (byzDecision pickIdx (mapKeys node.convincedValues)) }
      else
        { node with
            finalDecision := some (honestDecision (mapKeys node.convincedValues)) } := by
  simp [completeProtocol]

theorem executeNextRound_allMessages (pickIdx : List Nat → Nat) (s : ProtocolState)
    (h : ¬ s.numByzantine + 1 < s.currentRound) :
    (executeNextRound pickIdx s).allMessages = s.allMessages ++ roundEchoes s := by
  unfold executeNextRound
  simp only [if_neg h]
  by_cases h2 : s.numByzantine + 1 ≤ s.currentRound
  · simp [h2, completeProtocol]
  · simp [h2]

/-- How one round transforms the node at position `j`: updated conviction
map, round echoes addressed to `j` appended to the inbox, identity and
Byzantine flag untouched (the decision may additionally be assigned when the
round is the final one). -/
theorem executeNextRound_getElem? (pickIdx : List Nat → Nat) (s : ProtocolState)
    (j : Nat) (node : Node) (h : ¬ s.numByzantine + 1 < s.currentRound)
    (hj : s.nodes[j]? = some node) :
    ∃ node', (executeNextRound pickIdx s).nodes[j]? = some node' ∧
      node'.id = node.id ∧ node'.isByzantine = node.isByzantine ∧
      node'.convincedValues = (convictNode s.currentRound node).1 ∧
      node'.receivedMessages =
        node.receivedMessages ++ (roundEchoes s).filter (fun m => m.toNode == j) := by
  have hres : (roundResults s)[j]? = some (node, convictNode s.currentRound node) := by
    simp [roundResults, hj]
  have hmid : (rebuildNodes (roundEchoes s) 0 (roundResults s))[j]? =
      some { node with
               convincedValues := (convictNode s.currentRound node).1
               receivedMessages :=
                 node.receivedMessages ++
                   (roundEchoes s).filter (fun m => m.toNode == j) } := by
    rw [rebuildNodes_getElem? (roundEchoes s) (roundResults s) 0 j, hres]
    simp
  unfold executeNextRound
  simp only [if_neg h]
  by_cases h2 : s.numByzantine + 1 ≤ s.currentRound
  · simp only [h2, if_true]
    rw [completeProtocol_getElem?, hmid]
    simp only [Option.map_some']
    split <;> exact ⟨_, rfl, rfl, rfl, rfl, rfl⟩
  · simp only [h2, if_false]
    exact ⟨_, hmid, rfl, rfl, rfl, rfl⟩

theorem mapHas_eq_false_lookup_none {m : ConvMap} {v : Nat}
    (h : mapHas m v = false) : m.lookup v = none := by
  unfold mapHas at h
  exact Option.not_isSome_iff_eq_none.mp (by simp [h])

/-! ### Claim theorems -/

/-- C1: when round `t` (with `1 ≤ t ≤ f+1`) is advanced, an honest party
becomes convinced of a value `v` iff `v` is not already in its convinced set
and some inbox message carries `v` with a signature chain whose first signer
is party 0 and whose number of distinct signers is at least `t+1`; when it
becomes convinced, the recorded round for `v` is `t`. -/
theorem C1_conviction_rule (pickIdx : List Nat → Nat) (s : ProtocolState)
    (t j v : Nat) (node : Node)
    (ht : s.currentRound = t) (ht1 : 1 ≤ t) (ht2 : t ≤ s.numByzantine + 1)
    (hj : s.nodes[j]? = some node) (hHonest : node.isByzantine = false) :
    ∃ node', (executeNextRound pickIdx s).nodes[j]? = some node' ∧
      ((mapHas node.convincedValues v = false ∧ mapHas node'.convincedValues v = true) ↔
        (mapHas node.convincedValues v = false ∧
          ∃ m ∈ node.receivedMessages, m.value = v ∧ m.signatures.head? = some 0 ∧
            t + 1 ≤ uniqueCount m.signatures)) ∧
      (mapHas node.convincedValues v = false → mapHas node'.convincedValues v = true →
        node'.convincedValues.lookup v = some t) := by
  subst ht
  have hle : ¬ s.numByzantine + 1 < s.currentRound := by omega
  obtain ⟨node', hget, hid, hbyz, hconv, hinbox⟩ :=
    executeNextRound_getElem? pickIdx s j node hle hj
  have hchar := convictNode_lookup_honest s.currentRound v node hHonest
  have key : ∀ (hNew : mapHas node.convincedValues v = false),
      node'.convincedValues.lookup v =
        if ∃ m ∈ node.receivedMessages, m.value = v ∧ m.signatures.head? = some 0 ∧
            s.currentRound + 1 ≤ uniqueCount m.signatures then some s.currentRound
        else none := by
    intro hNew
    have hnone := mapHas_eq_false_lookup_none hNew
    rw [hconv, hchar, hnone]
    simp
  refine ⟨node', hget, ?_, ?_⟩
  · constructor
    · rintro ⟨hNew, hNow⟩
      refine ⟨hNew, ?_⟩
      unfold mapHas at hNow
      rw [key hNew] at hNow
      by_cases hx : ∃ m ∈ node.receivedMessages, m.value = v ∧
          m.signatures.head? = some 0 ∧ s.currentRound + 1 ≤ uniqueCount m.signatures
      · exact hx
      · rw [if_neg hx] at hNow
        simp at hNow
    · rintro ⟨hNew, hx⟩
      refine ⟨hNew, ?_⟩
      unfold mapHas
      rw [key hNew, if_pos hx]
      rfl
  · intro hNew hNow
    unfold mapHas at hNow
    rw [key hNew] at hNow ⊢
    by_cases hx : ∃ m ∈ node.receivedMessages, m.value = v ∧
        m.signatures.head? = some 0 ∧ s.currentRound + 1 ≤ uniqueCount m.signatures
    · rw [if_pos hx]
    · rw [if_neg hx] at hNow
      simp at hNow

/-- A sample honest node holding one message with a sender-first chain of
two distinct signers, used to exercise the round-1 conviction rule. -/
def sampleNodeC1 : Node :=
  { id := 0
    isSender := true
    isByzantine := false
    convincedValues := []
    receivedMessages :=
      [{ value := 7, signatures := [0, 1], fromNode := 1, toNode := 0,
         round := 0, id := "m" }]
    finalDecision := none }

/-- A sample engine state at round 1 with `f = 1` containing `sampleNodeC1`. -/
def sampleStateC1 : ProtocolState :=
  { numNodes := 1
    numByzantine := 1
    senderValue := 7
    currentRound := 1
    nodes := [sampleNodeC1]
    allMessages := []
    protocolComplete := false }

theorem C1_conviction_rule_witness :
    sampleStateC1.currentRound = 1 ∧ 1 ≤ 1 ∧ 1 ≤ sampleStateC1.numByzantine + 1 ∧
    sampleStateC1.nodes[0]? = some sampleNodeC1 ∧
    sampleNodeC1.isByzantine = false ∧
    ∃ node', (executeNextRound (fun _ => 0) sampleStateC1).nodes[0]? = some node' ∧
      ((mapHas sampleNodeC1.convincedValues 7 = false ∧
          mapHas node'.convincedValues 7 = true) ↔
        (mapHas sampleNodeC1.convincedValues 7 = false ∧
          ∃ m ∈ sampleNodeC1.receivedMessages, m.value = 7 ∧
            m.signatures.head? = some 0 ∧ 1 + 1 ≤ uniqueCount m.signatures)) ∧
      (mapHas sampleNodeC1.convincedValues 7 = false →
        mapHas node'.convincedValues 7 = true →
        node'.convincedValues.lookup 7 = some 1) :=
  ⟨rfl, le_refl 1, by decide, rfl, rfl,
    C1_conviction_rule (fun _ => 0) sampleStateC1 1 0 7 sampleNodeC1 rfl
      (by decide) (by decide) rfl rfl⟩

/-- C2: finalization sets an honest party's decision to the single value `v`
when its convinced set is exactly `{v}`, and to ⊥ (`none`) when it holds
zero or two-or-more values. -/
theorem C2_decision_rule (pickIdx : List Nat → Nat) (s : ProtocolState)
    (j : Nat) (node : Node) (hj : s.nodes[j]? = some node)
    (hHonest : node.isByzantine = false) :
    ∃ node', (completeProtocol pickIdx s).nodes[j]? = some node' ∧
      (∀ v, mapKeys node.convincedValues = [v] →
        node'.finalDecision = some (some v)) ∧
      ((mapKeys node.convincedValues).length ≠ 1 →
        node'.finalDecision = some none) := by
  rw [completeProtocol_getElem? pickIdx s j, hj]
  simp only [Option.map_some', hHonest, Bool.false_eq_true, if_false]
  refine ⟨_, rfl, ?_, ?_⟩
  · intro v hv
    simp [honestDecision, hv]
  · intro hlen
    rcases hkeys : mapKeys node.convincedValues with _ | ⟨a, tl⟩
    · simp [honestDecision, hkeys]
    · rcases tl with _ | ⟨b, rest⟩
      · rw [hkeys] at hlen
        simp at hlen
      · simp [honestDecision, hkeys]

theorem C2_decision_rule_witness :
    sampleStateC1.nodes[0]? = some sampleNodeC1 ∧
    sampleNodeC1.isByzantine = false ∧
    ∃ node', (completeProtocol (fun _ => 0) sampleStateC1).nodes[0]? = some node' ∧
      (∀ v, mapKeys sampleNodeC1.convincedValues = [v] →
        node'.finalDecision = some (some v)) ∧
      ((mapKeys sampleNodeC1.convincedValues).length ≠ 1 →
        node'.finalDecision = some none) :=
  ⟨rfl, rfl, C2_decision_rule (fun _ => 0) sampleStateC1 0 sampleNodeC1 rfl rfl⟩

/-- `completeProtocol` only writes decisions: identity, Byzantine flag and
conviction map of every node are untouched. -/
theorem completeProtocol_conv (pickIdx : List Nat → Nat) (s : ProtocolState)
    (j : Nat) (node : Node) (hj : s.nodes[j]? = some node) :
    ∃ node', (completeProtocol pickIdx s).nodes[j]? = some node' ∧
      node'.convincedValues = node.convincedValues ∧
      node'.id = node.id ∧ node'.isByzantine = node.isByzantine := by
  rw [completeProtocol_getElem? pickIdx s j, hj]
  simp only [Option.map_some']
  split <;> exact ⟨_, rfl, rfl, rfl, rfl⟩

theorem convictNode_mono (t v r : Nat) (node : Node)
    (hv : node.convincedValues.lookup v = some r) :
    ((convictNode t node).1).lookup v = some r := by
  unfold convictNode
  exact convict_fold_mono t node.isByzantine v r node.receivedMessages
    node.convincedValues false hv

/-- One `executeNextRound` call never removes a conviction entry. -/
theorem step_conv_mono (pickIdx : List Nat → Nat) (s : ProtocolState)
    (j v r : Nat) (node : Node) (hj : s.nodes[j]? = some node)
    (hv : node.convincedValues.lookup v = some r) :
    ∃ node', (executeNextRound pickIdx s).nodes[j]? = some node' ∧
      node'.convincedValues.lookup v = some r := by
  by_cases h : s.numByzantine + 1 < s.currentRound
  · unfold executeNextRound
    simp only [if_pos h]
    by_cases hc : s.protocolComplete = true
    · simp only [hc, if_true]
      exact ⟨node, hj, hv⟩
    · have hc' : s.protocolComplete = false := by simpa using hc
      simp only [hc', Bool.false_eq_true, if_false]
      obtain ⟨node', hget, hcv, -, -⟩ := completeProtocol_conv pickIdx s j node hj
      exact ⟨node', hget, by rw [hcv]; exact hv⟩
  · obtain ⟨node', hget, -, -, hconv, -⟩ :=
      executeNextRound_getElem? pickIdx s j node h hj
    refine ⟨node', hget, ?_⟩
    rw [hconv]
    exact convictNode_mono s.currentRound v r node hv

theorem iterate_conv_mono (pickIdx : List Nat → Nat) (k : Nat) :
    ∀ (s : ProtocolState) (j v r : Nat) (node : Node),
      s.nodes[j]? = some node → node.convincedValues.lookup v = some r →
      ∃ node', ((executeNextRound pickIdx)^[k] s).nodes[j]? = some node' ∧
        node'.convincedValues.lookup v = some r := by
  induction k with
  | zero => intro s j v r node hj hv; exact ⟨node, hj, hv⟩
  | succ k ih =>
      intro s j v r node hj hv
      obtain ⟨node', hget, hv'⟩ := step_conv_mono pickIdx s j v r node hj hv
      rw [Function.iterate_succ_apply]
      exact ih _ j v r node' hget hv'

/-- C6: once a value is in a party's convinced set (with its recorded
round), it stays there, with the same recorded round, at every later point
of the run: after the round-0 echo phase, after finalization, and after any
number of further round advances. -/
theorem C6_conviction_monotone (pickIdx : List Nat → Nat) (s : ProtocolState)
    (j v r k : Nat) (node : Node) (hj : s.nodes[j]? = some node)
    (hv : node.convincedValues.lookup v = some r) :
    (∃ node', (round0EchoPhase s).nodes[j]? = some node' ∧
      node'.convincedValues.lookup v = some r) ∧
    (∃ node', (completeProtocol pickIdx s).nodes[j]? = some node' ∧
      node'.convincedValues.lookup v = some r) ∧
    (∃ node', ((executeNextRound pickIdx)^[k] s).nodes[j]? = some node' ∧
      node'.convincedValues.lookup v = some r) := by
  refine ⟨?_, ?_, iterate_conv_mono pickIdx k s j v r node hj hv⟩
  · unfold round0EchoPhase
    simp only [List.getElem?_map, hj, Option.map_some']
    exact ⟨_, rfl, hv⟩
  · obtain ⟨node', hget, hcv, -, -⟩ := completeProtocol_conv pickIdx s j node hj
    exact ⟨node', hget, by rw [hcv]; exact hv⟩

/-- A sample honest node already convinced of value 7 at round 0. -/
def sampleNodeC6 : Node :=
  { id := 0
    isSender := true
    isByzantine := false
    convincedValues := [(7, 0)]
    receivedMessages := []
    finalDecision := none }

/-- A sample engine state containing `sampleNodeC6`. -/
def sampleStateC6 : ProtocolState :=
  { numNodes := 1
    numByzantine := 1
    senderValue := 7
    currentRound := 1
    nodes := [sampleNodeC6]
    allMessages := []
    protocolComplete := false }

theorem C6_conviction_monotone_witness :
    sampleStateC6.nodes[0]? = some sampleNodeC6 ∧
    sampleNodeC6.convincedValues.lookup 7 = some 0 ∧
    ((∃ node', (round0EchoPhase sampleStateC6).nodes[0]? = some node' ∧
        node'.convincedValues.lookup 7 = some 0) ∧
      (∃ node', (completeProtocol (fun _ => 0) sampleStateC6).nodes[0]? = some node' ∧
        node'.convincedValues.lookup 7 = some 0) ∧
      (∃ node', ((executeNextRound (fun _ => 0))^[3] sampleStateC6).nodes[0]? = some node' ∧
        node'.convincedValues.lookup 7 = some 0)) :=
  ⟨rfl, rfl,
    C6_conviction_monotone (fun _ => 0) sampleStateC6 0 7 0 3 sampleNodeC6 rfl rfl⟩

/-- The set of distinct non-⊥ decisions among the honest nodes (sender
included), the quantity the spec's Agreement condition is phrased over. -/
def distinctNonNullDecisions (nodes : List Node) : List (Option Nat) :=
  (((nodes.filter fun n => !n.isByzantine).map readDecision).filter
      fun d => d != none).dedup

theorem dedup_filter_length_le (l : List (Option Nat)) (p : Option Nat → Bool) :
    ((l.filter p).dedup).length ≤ l.dedup.length := by
  rw [← List.card_toFinset, ← List.card_toFinset]
  apply Finset.card_le_card
  intro x hx
  rw [List.mem_toFinset] at hx ⊢
  exact List.mem_of_mem_filter hx

/-- C3: on a completed run, Agreement is satisfied exactly when at most one
distinct non-⊥ decision appears among the honest parties' decisions (sender
included) — in particular when some honest parties decide a value and others
⊥ — and violated exactly when two or more distinct non-⊥ values appear. -/
theorem C3_agreement_check (nodes : List Node) :
    checkAgreement true nodes =
      (if (distinctNonNullDecisions nodes).length ≤ 1 then PropStatus.satisfied
       else PropStatus.violated) := by
  unfold checkAgreement distinctNonNullDecisions
  simp only [Bool.not_true, Bool.false_eq_true, if_false]
  by_cases hempty : (nodes.filter fun n => !n.isByzantine).isEmpty = true
  · rw [List.isEmpty_iff] at hempty
    simp [hempty]
  · simp only [hempty, Bool.false_eq_true, if_false]
    by_cases h1 :
        ((nodes.filter fun n => !n.isByzantine).map readDecision).dedup.length ≤ 1
    · have hle := dedup_filter_length_le
        ((nodes.filter fun n => !n.isByzantine).map readDecision)
        (fun d => d != none)
      rw [if_pos h1, if_pos (le_trans hle h1)]
    · rw [if_neg h1]
      by_cases h2 : 1 <
          ((((nodes.filter fun n => !n.isByzantine).map readDecision).filter
            fun d => d != none).dedup).length
      · rw [if_pos h2, if_neg (by omega)]
      · rw [if_neg h2, if_pos (by omega)]

/-- The honest nodes of the table (the sender, id 0, is not excluded). -/
def honestFilter (nodes : List Node) : List Node :=
  nodes.filter fun nd => !nd.isByzantine

/-- The spec's Validity condition: every honest party's decision (sender
included) equals the sender's broadcast value. -/
def allHonestDecidedSenderValue (sv : Nat) (nodes : List Node) : Prop :=
  ∀ n ∈ honestFilter nodes, readDecision n = some sv

instance (sv : Nat) (nodes : List Node) :
    Decidable (allHonestDecidedSenderValue sv nodes) :=
  List.decidableBAll _ _

/-- C4: on a completed run, Validity is not-applicable when the sender is
Byzantine, and otherwise satisfied exactly when every honest party's
decision (sender included) equals the sender's broadcast value, violated
otherwise. -/
theorem C4_validity_check (senderIsByzantine : Bool) (sv : Nat)
    (nodes : List Node) :
    checkValidity true senderIsByzantine sv nodes =
      (if senderIsByzantine then PropStatus.na
       else if allHonestDecidedSenderValue sv nodes then PropStatus.satisfied
       else PropStatus.violated) := by
  unfold checkValidity allHonestDecidedSenderValue honestFilter
  simp only [Bool.not_true, Bool.false_eq_true, if_false]
  cases senderIsByzantine with
  | true => simp
  | false =>
      simp only [Bool.false_eq_true, if_false]
      by_cases hempty : (nodes.filter fun nd => !nd.isByzantine).isEmpty = true
      · rw [List.isEmpty_iff] at hempty
        simp [hempty]
      · simp only [hempty, Bool.false_eq_true, if_false]
        by_cases hall : ∀ n ∈ nodes.filter (fun nd => !nd.isByzantine),
            readDecision n = some sv
        · rw [if_pos hall]
          have hb : (nodes.filter fun nd => !nd.isByzantine).all
              (fun n => readDecision n == some sv) = true := by
            rw [List.all_eq_true]
            intro n hn
            simpa using hall n hn
          simp [hb]
        · rw [if_neg hall]
          have hb : ¬ (nodes.filter fun nd => !nd.isByzantine).all
              (fun n => readDecision n == some sv) = true := by
            rw [List.all_eq_true]
            intro hc
            exact hall fun n hn => by simpa using hc n hn
          simp [hb]

/-! ### Run-level lemmas -/

/-- The driver composition of §2: initialization immediately followed by
round 0, the state from which `advanceRound` calls start. -/
def runStart (n f sv : Nat) (sel : List Nat) : ProtocolState :=
  executeRound0 (initializeProtocol n f sv sel)

theorem completeProtocol_complete (pickIdx : List Nat → Nat) (s : ProtocolState) :
    (completeProtocol pickIdx s).protocolComplete = true := rfl

theorem completeProtocol_decisions (pickIdx : List Nat → Nat) (s : ProtocolState) :
    ∀ nd ∈ (completeProtocol pickIdx s).nodes, nd.finalDecision.isSome := by
  intro nd hnd
  unfold completeProtocol at hnd
  simp only [List.mem_map] at hnd
  obtain ⟨x, -, rfl⟩ := hnd
  by_cases hb : x.isByzantine = true <;> simp [hb]

/-- A mid-run round (`t < f+1`) advances the counter by one and leaves the
completion flag and the parameters unchanged. -/
theorem step_fields_mid (pickIdx : List Nat → Nat) (s : ProtocolState)
    (h : s.currentRound < s.numByzantine + 1) :
    (executeNextRound pickIdx s).currentRound = s.currentRound + 1 ∧
    (executeNextRound pickIdx s).protocolComplete = s.protocolComplete ∧
    (executeNextRound pickIdx s).numByzantine = s.numByzantine := by
  unfold executeNextRound
  have h1 : ¬ s.numByzantine + 1 < s.currentRound := by omega
  have h2 : ¬ s.numByzantine + 1 ≤ s.currentRound := by omega
  simp [h1, h2]

/-- The final round (`t = f+1`) finalizes: the protocol is complete and every
node holds a decision. -/
theorem step_final (pickIdx : List Nat → Nat) (s : ProtocolState)
    (h : s.currentRound = s.numByzantine + 1) :
    (executeNextRound pickIdx s).protocolComplete = true ∧
    ∀ nd ∈ (executeNextRound pickIdx s).nodes, nd.finalDecision.isSome := by
  unfold executeNextRound
  have h1 : ¬ s.numByzantine + 1 < s.currentRound := by omega
  have h2 : s.numByzantine + 1 ≤ s.currentRound := by omega
  simp only [if_neg h1, if_pos h2]
  exact ⟨completeProtocol_complete _ _, completeProtocol_decisions _ _⟩

theorem iterate_mid_fields (pickIdx : List Nat → Nat) (s0 : ProtocolState)
    (hr : s0.currentRound = 1) (hc : s0.protocolComplete = false) :
    ∀ k, k ≤ s0.numByzantine →
      ((executeNextRound pickIdx)^[k] s0).currentRound = k + 1 ∧
      ((executeNextRound pickIdx)^[k] s0).protocolComplete = false ∧
      ((executeNextRound pickIdx)^[k] s0).numByzantine = s0.numByzantine := by
  intro k
  induction k with
  | zero => intro _; exact ⟨hr, hc, rfl⟩
  | succ k ih =>
      intro hk
      obtain ⟨hr', hc', hf'⟩ := ih (by omega)
      rw [Function.iterate_succ_apply']
      have hlt : ((executeNextRound pickIdx)^[k] s0).currentRound <
          ((executeNextRound pickIdx)^[k] s0).numByzantine + 1 := by
        rw [hr', hf']
        omega
      obtain ⟨a, b, c⟩ := step_fields_mid pickIdx _ hlt
      exact ⟨by rw [a, hr'], by rw [b, hc'], by rw [c, hf']⟩

/-- C5: from the state after round 0, exactly `f+1` round advances complete
the protocol with every party's decision assigned, and no earlier point is
complete — each of the first `f+1` calls executes exactly one
conviction-and-echo round (the counter after `k` of them is `k+1`). -/
theorem C5_termination (pickIdx : List Nat → Nat) (n f sv k : Nat)
    (sel : List Nat) (hk : k < f + 1) :
    (((executeNextRound pickIdx)^[f + 1] (runStart n f sv sel)).protocolComplete = true ∧
      ∀ nd ∈ ((executeNextRound pickIdx)^[f + 1] (runStart n f sv sel)).nodes,
        nd.finalDecision.isSome) ∧
    (((executeNextRound pickIdx)^[k] (runStart n f sv sel)).protocolComplete = false ∧
      ((executeNextRound pickIdx)^[k] (runStart n f sv sel)).currentRound = k + 1) := by
  have hr : (runStart n f sv sel).currentRound = 1 := rfl
  have hc : (runStart n f sv sel).protocolComplete = false := rfl
  have hf : (runStart n f sv sel).numByzantine = f := rfl
  constructor
  · obtain ⟨hr', hc', hf'⟩ :=
      iterate_mid_fields pickIdx (runStart n f sv sel) hr hc f (by rw [hf])
    rw [Function.iterate_succ_apply']
    exact step_final pickIdx _ (by rw [hr', hf', hf])
  · obtain ⟨hr', hc', -⟩ :=
      iterate_mid_fields pickIdx (runStart n f sv sel) hr hc k
        (by rw [hf]; omega)
    exact ⟨hc', hr'⟩

theorem C5_termination_witness :
    0 < 1 + 1 ∧
    ((((executeNextRound (fun _ => 0))^[1 + 1] (runStart 3 1 7 [1])).protocolComplete = true ∧
      ∀ nd ∈ ((executeNextRound (fun _ => 0))^[1 + 1] (runStart 3 1 7 [1])).nodes,
        nd.finalDecision.isSome) ∧
    (((executeNextRound (fun _ => 0))^[0] (runStart 3 1 7 [1])).protocolComplete = false ∧
      ((executeNextRound (fun _ => 0))^[0] (runStart 3 1 7 [1])).currentRound = 0 + 1)) :=
  ⟨by decide, C5_termination (fun _ => 0) 3 1 7 0 [1] (by decide)⟩

theorem initializeProtocol_getElem? (n f sv : Nat) (sel : List Nat) (i : Nat)
    (hi : i < n) :
    (initializeProtocol n f sv sel).nodes[i]? = some
      { id := i
        isSender := i == 0
        isByzantine := (padByz sel n f).contains i
        convincedValues := []
        receivedMessages := []
        finalDecision := none } := by
  unfold initializeProtocol
  simp [List.getElem?_map, List.getElem?_range, hi]

theorem find?_beq_range' (i : Nat) :
    ∀ (a len : Nat), a ≤ i → i < a + len →
      (List.range' a len).find? (fun j => j == i) = some i := by
  intro a len
  induction len generalizing a with
  | zero => intro h1 h2; omega
  | succ len ih =>
      intro h1 h2
      rw [List.range'_succ]
      by_cases ha : a = i
      · subst ha
        simp [List.find?]
      · have hne : (a == i) = false := by simp [ha]
        rw [List.find?_cons, hne]
        exact ih (a + 1) (by omega) (by omega)

/-- C7: with an honest sender, round 0's broadcast phase emits exactly one
message per non-sender party `i ∈ [1, n)` carrying the sender's value with
chain `[0]` and round 0; the sender convinces itself of its value at round
0; and each recipient's inbox holds its single round-0 message, of which it
becomes convinced at round 0. -/
theorem C7_round0_honest_sender (n f sv : Nat) (sel : List Nat) (hn : 1 ≤ n)
    (hSender : (padByz sel n f).contains 0 = false) :
    (round0Broadcast (initializeProtocol n f sv sel)).allMessages =
      (List.range' 1 (n - 1)).map (mkRound0Msg false sv) ∧
    ((round0Broadcast (initializeProtocol n f sv sel)).allMessages.map
        Message.toNode = List.range' 1 (n - 1)) ∧
    (∀ m ∈ (round0Broadcast (initializeProtocol n f sv sel)).allMessages,
      m.value = sv ∧ m.signatures = [0] ∧ m.round = 0 ∧ m.fromNode = 0) ∧
    (∃ nd, (round0Broadcast (initializeProtocol n f sv sel)).nodes[0]? = some nd ∧
      nd.convincedValues = [(sv, 0)]) ∧
    (∀ i, 1 ≤ i → i < n →
      ∃ nd, (round0Broadcast (initializeProtocol n f sv sel)).nodes[i]? = some nd ∧
        nd.receivedMessages = [mkRound0Msg false sv i] ∧
        (mkRound0Msg false sv i).value = sv ∧
        nd.convincedValues = [(sv, 0)]) := by
  have hrange_head : (List.range n).head? = some 0 := by
    obtain ⟨m, rfl⟩ : ∃ m, n = m + 1 := ⟨n - 1, by omega⟩
    rw [List.range_succ_eq_map]
    rfl
  have hhead : (initializeProtocol n f sv sel).nodes.head? = some
      { id := 0
        isSender := (0 == 0 : Bool)
        isByzantine := (padByz sel n f).contains 0
        convincedValues := []
        receivedMessages := []
        finalDecision := none } := by
    unfold initializeProtocol
    simp [List.head?_map, hrange_head]
  have hsv : (initializeProtocol n f sv sel).senderValue = sv := rfl
  have hnn : (initializeProtocol n f sv sel).numNodes = n := rfl
  have hmsgs : (round0Broadcast (initializeProtocol n f sv sel)).allMessages =
      (List.range' 1 (n - 1)).map (mkRound0Msg false sv) := by
    unfold round0Broadcast
    simp only [hhead, hSender]
    rfl
  refine ⟨hmsgs, ?_, ?_, ?_, ?_⟩
  · rw [hmsgs, List.map_map]
    have : (Message.toNode ∘ mkRound0Msg false sv) = fun j => j := by
      funext j
      simp [mkRound0Msg]
    rw [this, List.map_id']
  · intro m hm
    rw [hmsgs] at hm
    obtain ⟨j, -, rfl⟩ := List.mem_map.mp hm
    refine ⟨?_, rfl, rfl, rfl⟩
    simp [mkRound0Msg, round0Value]
  · have h0 := initializeProtocol_getElem? n f sv sel 0 (by omega)
    unfold round0Broadcast
    simp only [hhead, hSender, hsv, hnn, List.getElem?_map, h0, Option.map_some']
    exact ⟨_, rfl, rfl⟩
  · intro i h1 h2
    have hi := initializeProtocol_getElem? n f sv sel i h2
    have hfind : ((List.range' 1 (n - 1)).map (mkRound0Msg false sv)).find?
        (fun m => m.toNode == i) = some (mkRound0Msg false sv i) := by
      rw [List.find?_map]
      have hcomp : ((fun m => m.toNode == i) ∘ mkRound0Msg false sv) =
          (fun j => j == i) := by
        funext j
        simp [mkRound0Msg]
      rw [hcomp, find?_beq_range' i 1 (n - 1) h1 (by omega)]
      rfl
    have hne : ¬ (i = 0) := by omega
    unfold round0Broadcast
    simp only [hhead, hSender, hsv, hnn, List.getElem?_map, hi, Option.map_some',
      hne, if_false, hfind]
    refine ⟨_, rfl, rfl, ?_, ?_⟩
    · simp [mkRound0Msg, round0Value]
    · simp [mkRound0Msg, round0Value]

theorem C7_round0_honest_sender_witness :
    1 ≤ 3 ∧ (padByz [1] 3 1).contains 0 = false ∧
    ((round0Broadcast (initializeProtocol 3 1 7 [1])).allMessages =
      (List.range' 1 (3 - 1)).map (mkRound0Msg false 7) ∧
    ((round0Broadcast (initializeProtocol 3 1 7 [1])).allMessages.map
        Message.toNode = List.range' 1 (3 - 1)) ∧
    (∀ m ∈ (round0Broadcast (initializeProtocol 3 1 7 [1])).allMessages,
      m.value = 7 ∧ m.signatures = [0] ∧ m.round = 0 ∧ m.fromNode = 0) ∧
    (∃ nd, (round0Broadcast (initializeProtocol 3 1 7 [1])).nodes[0]? = some nd ∧
      nd.convincedValues = [(7, 0)]) ∧
    (∀ i, 1 ≤ i → i < 3 →
      ∃ nd, (round0Broadcast (initializeProtocol 3 1 7 [1])).nodes[i]? = some nd ∧
        nd.receivedMessages = [mkRound0Msg false 7 i] ∧
        (mkRound0Msg false 7 i).value = 7 ∧
        nd.convincedValues = [(7, 0)])) :=
  ⟨by decide, by decide,
    C7_round0_honest_sender 3 1 7 [1] (by decide) (by decide)⟩

theorem mem_getElem?_of_mem {α : Type} {l : List α} {x : α} (h : x ∈ l) :
    ∃ j : Nat, l[j]? = some x := by
  obtain ⟨j, hj, rfl⟩ := List.mem_iff_getElem.mp h
  exact ⟨j, by simp [List.getElem?_eq_getElem hj]⟩

/-- Every message `echoesForNode` emits originates from the node, is tagged
with the round, carries a value of the supplied conviction map, and its
chain is `[0]` for the sender or a convincing inbox message's chain extended
with the node's id. -/
theorem echoesForNode_sound (t n : Nat) (node : Node) (conv : ConvMap) :
    ∀ m ∈ echoesForNode t n node conv,
      m.fromNode = node.id ∧ m.round = t ∧
      ((conv.lookup m.value).isSome = true) ∧
      ((node.id = 0 ∧ m.signatures = [0]) ∨
       (∃ cm ∈ node.receivedMessages, cm.value = m.value ∧
          cm.signatures.head? = some 0 ∧
          m.signatures = cm.signatures ++ [node.id])) := by
  intro m hm
  simp only [echoesForNode, List.mem_flatMap] at hm
  obtain ⟨v, hv, hm⟩ := hm
  by_cases hc : ((node.receivedMessages.find?
      (fun c => c.value == v && c.signatures.head? == some 0)).isSome
        || node.id == 0) = true
  · rw [if_pos hc] at hm
    rw [List.mem_filterMap] at hm
    obtain ⟨i, -, hmi⟩ := hm
    by_cases hii : i = node.id
    · rw [if_pos hii] at hmi
      exact absurd hmi (by simp)
    · rw [if_neg hii] at hmi
      have hm' := Option.some.inj hmi
      subst hm'
      refine ⟨rfl, rfl, ?_, ?_⟩
      · simpa using (mem_mapKeys_iff conv v).mp hv
      · by_cases h0 : node.id = 0
        · exact Or.inl ⟨h0, by simp [mkEchoSigs, h0]⟩
        · right
          have h0' : (node.id == 0) = false := by simp [h0]
          rw [h0'] at hc
          simp only [Bool.or_false] at hc
          obtain ⟨c, hcc⟩ := Option.isSome_iff_exists.mp hc
          have hcmem := List.mem_of_find?_eq_some hcc
          have hcp := List.find?_some hcc
          rw [Bool.and_eq_true] at hcp
          have hval : c.value = v := by simpa using hcp.1
          have hhd : c.signatures.head? = some 0 := by simpa using hcp.2
          exact ⟨c, hcmem, hval, hhd, by simp [mkEchoSigs, h0, hcc]⟩
  · rw [if_neg hc] at hm
    exact absurd hm (by simp)

/-- C9: in a round `t` with `1 ≤ t ≤ f+1`, a Byzantine party's conviction
map is unchanged (the conviction rule is skipped for it), and every message
it emits this round carries a value already in its convinced set with a
chain built like an honest echo: a convincing inbox message's chain extended
with its own id, `[0]` when it is the sender, or `[0, id]` when no
convincing message exists — the implemented adversary fabricates neither
values nor chains. -/
theorem C9_byzantine_no_fabrication (pickIdx : List Nat → Nat)
    (s : ProtocolState) (t j : Nat) (node : Node)
    (ht : s.currentRound = t) (ht1 : 1 ≤ t) (ht2 : t ≤ s.numByzantine + 1)
    (hids : ∀ l, (hl : l < s.nodes.length) → (s.nodes[l]).id = l)
    (hj : s.nodes[j]? = some node) (hByz : node.isByzantine = true) :
    (∃ node', (executeNextRound pickIdx s).nodes[j]? = some node' ∧
      node'.convincedValues = node.convincedValues) ∧
    (∀ m ∈ (executeNextRound pickIdx s).allMessages.drop s.allMessages.length,
      m.fromNode = node.id →
      ((node.convincedValues.lookup m.value).isSome = true ∧ m.round = t ∧
        ((node.id = 0 ∧ m.signatures = [0]) ∨
         (∃ cm ∈ node.receivedMessages, cm.value = m.value ∧
            cm.signatures.head? = some 0 ∧
            m.signatures = cm.signatures ++ [node.id]) ∨
         (node.id ≠ 0 ∧ m.signatures = [0, node.id])))) := by
  subst ht
  have hle : ¬ s.numByzantine + 1 < s.currentRound := by omega
  constructor
  · obtain ⟨node', hget, -, -, hconv, -⟩ :=
      executeNextRound_getElem? pickIdx s j node hle hj
    exact ⟨node', hget, by rw [hconv, convictNode_byz _ _ hByz]⟩
  · intro m hm hfrom
    rw [executeNextRound_allMessages pickIdx s hle, List.drop_left] at hm
    simp only [roundEchoes, roundResults, List.mem_flatMap, List.mem_map] at hm
    obtain ⟨r, ⟨nd, hnd, rfl⟩, hmr⟩ := hm
    have hmr' : m ∈ echoesForNode s.currentRound s.numNodes nd
        (convictNode s.currentRound nd).1 := by
      by_cases hcond : ((nd, convictNode s.currentRound nd).2.2 ||
          (nd, convictNode s.currentRound nd).1.isByzantine) = true
      · rwa [if_pos hcond] at hmr
      · rw [if_neg hcond] at hmr
        exact absurd hmr (by simp)
    obtain ⟨hfrom', hround, hlook, hsig⟩ :=
      echoesForNode_sound s.currentRound s.numNodes nd _ m hmr'
    have hnd_eq : nd = node := by
      obtain ⟨l, hl⟩ := mem_getElem?_of_mem hnd
      have hlen : l < s.nodes.length := by
        rw [List.getElem?_eq_some] at hl
        exact hl.1
      rw [List.getElem?_eq_getElem hlen] at hl
      have hEl : s.nodes[l] = nd := Option.some.inj hl
      have hjlen : j < s.nodes.length := by
        rw [List.getElem?_eq_some] at hj
        exact hj.1
      have hj2 := hj
      rw [List.getElem?_eq_getElem hjlen] at hj2
      have hEj : s.nodes[j] = node := Option.some.inj hj2
      have hndid : nd.id = l := by
        rw [← hEl]
        exact hids l hlen
      have hnodeid : node.id = j := by
        rw [← hEj]
        exact hids j hjlen
      have hlj : l = j := by
        rw [← hndid, ← hnodeid, ← hfrom', hfrom]
      subst hlj
      exact hEl.symm.trans hEj
    subst hnd_eq
    rw [convictNode_byz _ _ hByz] at hlook
    refine ⟨hlook, hround, ?_⟩
    rcases hsig with h | h
    · exact Or.inl h
    · exact Or.inr (Or.inl h)

/-- A sample Byzantine node convinced of value 5 through a sender-first
message, inside a two-node state at round 1. -/
def sampleNodeC9 : Node :=
  { id := 1
    isSender := false
    isByzantine := true
    convincedValues := [(5, 0)]
    receivedMessages :=
      [{ value := 5, signatures := [0], fromNode := 0, toNode := 1,
         round := 0, id := "m0" }]
    finalDecision := none }

/-- A sample engine state containing an honest sender and `sampleNodeC9`. -/
def sampleStateC9 : ProtocolState :=
  { numNodes := 2
    numByzantine := 1
    senderValue := 5
    currentRound := 1
    nodes :=
      [{ id := 0
         isSender := true
         isByzantine := false
         convincedValues := [(5, 0)]
         receivedMessages := []
         finalDecision := none },
       sampleNodeC9]
    allMessages := []
    protocolComplete := false }

theorem C9_byzantine_no_fabrication_witness :
    sampleStateC9.currentRound = 1 ∧ 1 ≤ 1 ∧ 1 ≤ sampleStateC9.numByzantine + 1 ∧
    sampleStateC9.nodes[1]? = some sampleNodeC9 ∧
    sampleNodeC9.isByzantine = true ∧
    ((∃ node', (executeNextRound (fun _ => 0) sampleStateC9).nodes[1]? = some node' ∧
      node'.convincedValues = sampleNodeC9.convincedValues) ∧
    (∀ m ∈ (executeNextRound (fun _ => 0) sampleStateC9).allMessages.drop
        sampleStateC9.allMessages.length,
      m.fromNode = sampleNodeC9.id →
      ((sampleNodeC9.convincedValues.lookup m.value).isSome = true ∧ m.round = 1 ∧
        ((sampleNodeC9.id = 0 ∧ m.signatures = [0]) ∨
         (∃ cm ∈ sampleNodeC9.receivedMessages, cm.value = m.value ∧
            cm.signatures.head? = some 0 ∧
            m.signatures = cm.signatures ++ [sampleNodeC9.id]) ∨
         (sampleNodeC9.id ≠ 0 ∧ m.signatures = [0, sampleNodeC9.id]))))) :=
  ⟨rfl, le_refl 1, by decide, rfl, rfl,
    C9_byzantine_no_fabrication (fun _ => 0) sampleStateC9 1 1 sampleNodeC9 rfl
      (by decide) (by decide) (by decide) rfl rfl⟩

/-! ### Inbox-addressing invariant -/

/-- Every node's id equals its position in the node table. -/
def idsOk (s : ProtocolState) : Prop :=
  ∀ (j : Nat) (nd : Node), s.nodes[j]? = some nd → nd.id = j

/-- Every message in any node's inbox is addressed to that node. -/
def inboxAddressed (s : ProtocolState) : Prop :=
  ∀ (j : Nat) (nd : Node), s.nodes[j]? = some nd →
    ∀ m ∈ nd.receivedMessages, m.toNode = nd.id

theorem idsOk_init (n f sv : Nat) (sel : List Nat) :
    idsOk (initializeProtocol n f sv sel) := by
  unfold idsOk
  intro j nd h
  have hlen : j < (initializeProtocol n f sv sel).nodes.length := by
    rw [List.getElem?_eq_some] at h
    exact h.1
  have hn : (initializeProtocol n f sv sel).nodes.length = n := by
    simp [initializeProtocol]
  have hjn : j < n := by
    rw [hn] at hlen
    exact hlen
  rw [initializeProtocol_getElem? n f sv sel j hjn] at h
  rw [← Option.some.inj h]

theorem inboxAddressed_init (n f sv : Nat) (sel : List Nat) :
    inboxAddressed (initializeProtocol n f sv sel) := by
  unfold inboxAddressed
  intro j nd h
  have hlen : j < (initializeProtocol n f sv sel).nodes.length := by
    rw [List.getElem?_eq_some] at h
    exact h.1
  have hn : (initializeProtocol n f sv sel).nodes.length = n := by
    simp [initializeProtocol]
  have hjn : j < n := by
    rw [hn] at hlen
    exact hlen
  rw [initializeProtocol_getElem? n f sv sel j hjn] at h
  rw [← Option.some.inj h]
  intro m hm
  exact absurd hm (by simp)

theorem round0Broadcast_node_shape (s : ProtocolState) (j : Nat) (node : Node)
    (hj : s.nodes[j]? = some node) :
    ∃ node', (round0Broadcast s).nodes[j]? = some node' ∧
      node'.id = node.id ∧
      (node'.receivedMessages = node.receivedMessages ∨
        ∃ m, node'.receivedMessages = [m] ∧ (m.toNode == node.id) = true) := by
  unfold round0Broadcast
  simp only [List.getElem?_map, hj, Option.map_some']
  by_cases h0 : node.id = 0
  · rw [if_pos h0]
    exact ⟨_, rfl, rfl, Or.inl rfl⟩
  · rw [if_neg h0]
    split
    · rename_i m heq
      have hto := List.find?_some heq
      exact ⟨_, rfl, rfl, Or.inr ⟨m, rfl, hto⟩⟩
    · exact ⟨_, rfl, rfl, Or.inl rfl⟩

theorem round0EchoPhase_node_shape (s : ProtocolState) (j : Nat) (node : Node)
    (hj : s.nodes[j]? = some node) :
    ∃ node', (round0EchoPhase s).nodes[j]? = some node' ∧
      node'.id = node.id ∧
      ∃ extra, node'.receivedMessages = node.receivedMessages ++ extra ∧
        ∀ m ∈ extra, (m.toNode == node.id) = true := by
  unfold round0EchoPhase
  simp only [List.getElem?_map, hj, Option.map_some']
  refine ⟨_, rfl, rfl, _, rfl, ?_⟩
  intro m hm
  exact (List.mem_filter.mp hm).2

theorem inv_completeProtocol (pickIdx : List Nat → Nat) (s : ProtocolState)
    (h1 : idsOk s) (h2 : inboxAddressed s) :
    idsOk (completeProtocol pickIdx s) ∧
    inboxAddressed (completeProtocol pickIdx s) := by
  unfold idsOk inboxAddressed
  constructor
  · intro j nd' hget'
    rw [completeProtocol_getElem?] at hget'
    rcases hs : s.nodes[j]? with _ | nd
    · rw [hs] at hget'
      exact absurd hget' (by simp)
    · rw [hs] at hget'
      simp only [Option.map_some'] at hget'
      have hid := h1 j nd hs
      split at hget' <;> (rw [← Option.some.inj hget']; exact hid)
  · intro j nd' hget'
    rw [completeProtocol_getElem?] at hget'
    rcases hs : s.nodes[j]? with _ | nd
    · rw [hs] at hget'
      exact absurd hget' (by simp)
    · rw [hs] at hget'
      simp only [Option.map_some'] at hget'
      have hmem := h2 j nd hs
      split at hget' <;>
        (rw [← Option.some.inj hget']; intro m hm; exact hmem m hm)

theorem inv_round0Broadcast (s : ProtocolState)
    (h1 : idsOk s) (h2 : inboxAddressed s) :
    idsOk (round0Broadcast s) ∧ inboxAddressed (round0Broadcast s) := by
  unfold idsOk inboxAddressed
  constructor
  · intro j nd' hget'
    rcases hs : s.nodes[j]? with _ | nd
    · unfold round0Broadcast at hget'
      simp only [List.getElem?_map, hs] at hget'
      exact absurd hget' (by simp)
    · obtain ⟨node', hget, hid, -⟩ := round0Broadcast_node_shape s j nd hs
      rw [hget] at hget'
      rw [← Option.some.inj hget', hid]
      exact h1 j nd hs
  · intro j nd' hget'
    rcases hs : s.nodes[j]? with _ | nd
    · unfold round0Broadcast at hget'
      simp only [List.getElem?_map, hs] at hget'
      exact absurd hget' (by simp)
    · obtain ⟨node', hget, hid, hbox⟩ := round0Broadcast_node_shape s j nd hs
      rw [hget] at hget'
      rw [← Option.some.inj hget', hid]
      rcases hbox with hsame | ⟨m, hone, hto⟩
      · rw [hsame]
        exact h2 j nd hs
      · rw [hone]
        intro m' hm'
        rw [List.mem_singleton.mp hm']
        simpa using hto

theorem inv_round0EchoPhase (s : ProtocolState)
    (h1 : idsOk s) (h2 : inboxAddressed s) :
    idsOk (round0EchoPhase s) ∧ inboxAddressed (round0EchoPhase s) := by
  unfold idsOk inboxAddressed
  constructor
  · intro j nd' hget'
    rcases hs : s.nodes[j]? with _ | nd
    · unfold round0EchoPhase at hget'
      simp only [List.getElem?_map, hs] at hget'
      exact absurd hget' (by simp)
    · obtain ⟨node', hget, hid, -⟩ := round0EchoPhase_node_shape s j nd hs
      rw [hget] at hget'
      rw [← Option.some.inj hget', hid]
      exact h1 j nd hs
  · intro j nd' hget'
    rcases hs : s.nodes[j]? with _ | nd
    · unfold round0EchoPhase at hget'
      simp only [List.getElem?_map, hs] at hget'
      exact absurd hget' (by simp)
    · obtain ⟨node', hget, hid, extra, hbox, hto⟩ :=
        round0EchoPhase_node_shape s j nd hs
      rw [hget] at hget'
      rw [← Option.some.inj hget', hid, hbox]
      intro m hm
      rcases List.mem_append.mp hm with hold | hnew
      · exact h2 j nd hs m hold
      · simpa using hto m hnew

theorem rebuildNodes_length (e : List Message) :
    ∀ (rs : List (Node × ConvMap × Bool)) (i : Nat),
      (rebuildNodes e i rs).length = rs.length := by
  intro rs
  induction rs with
  | nil => intro i; rfl
  | cons r rest ih =>
      intro i
      simp [rebuildNodes, ih]

theorem executeNextRound_nodes_length (pickIdx : List Nat → Nat)
    (s : ProtocolState) :
    (executeNextRound pickIdx s).nodes.length = s.nodes.length := by
  unfold executeNextRound
  by_cases h : s.numByzantine + 1 < s.currentRound
  · rw [if_pos h]
    by_cases hc : s.protocolComplete = true
    · simp [hc]
    · have hc' : s.protocolComplete = false := by simpa using hc
      simp [hc', completeProtocol]
  · rw [if_neg h]
    by_cases h2 : s.numByzantine + 1 ≤ s.currentRound
    · simp [h2, completeProtocol, rebuildNodes_length, roundResults]
    · simp [h2, rebuildNodes_length, roundResults]

theorem inv_step (pickIdx : List Nat → Nat) (s : ProtocolState)
    (h1 : idsOk s) (h2 : inboxAddressed s) :
    idsOk (executeNextRound pickIdx s) ∧
    inboxAddressed (executeNextRound pickIdx s) := by
  unfold idsOk inboxAddressed
  by_cases hgt : s.numByzantine + 1 < s.currentRound
  · unfold executeNextRound
    rw [if_pos hgt]
    by_cases hc : s.protocolComplete = true
    · simp only [hc, if_true]
      exact ⟨h1, h2⟩
    · have hc' : s.protocolComplete = false := by simpa using hc
      simp only [hc', Bool.false_eq_true, if_false]
      exact inv_completeProtocol pickIdx s h1 h2
  · constructor
    · intro j nd' hget'
      have hlen : j < s.nodes.length := by
        rw [List.getElem?_eq_some] at hget'
        have h := hget'.1
        rwa [executeNextRound_nodes_length] at h
      have hj : s.nodes[j]? = some (s.nodes[j]) := List.getElem?_eq_getElem hlen
      obtain ⟨node', hget, hid, -, -, -⟩ :=
        executeNextRound_getElem? pickIdx s j (s.nodes[j]) hgt hj
      rw [hget] at hget'
      rw [← Option.some.inj hget', hid]
      exact h1 j _ hj
    · intro j nd' hget'
      have hlen : j < s.nodes.length := by
        rw [List.getElem?_eq_some] at hget'
        have h := hget'.1
        rwa [executeNextRound_nodes_length] at h
      have hj : s.nodes[j]? = some (s.nodes[j]) := List.getElem?_eq_getElem hlen
      obtain ⟨node', hget, hid, -, -, hinbox⟩ :=
        executeNextRound_getElem? pickIdx s j (s.nodes[j]) hgt hj
      rw [hget] at hget'
      have hnd : node' = nd' := Option.some.inj hget'
      subst hnd
      intro m hm
      rw [hinbox] at hm
      rw [hid]
      rcases List.mem_append.mp hm with hold | hnew
      · exact h2 j _ hj m hold
      · have hto : (m.toNode == j) = true := (List.mem_filter.mp hnew).2
        have hto' : m.toNode = j := by simpa using hto
        rw [hto']
        exact (h1 j _ hj).symm

theorem inv_iterate (pickIdx : List Nat → Nat) (k : Nat) :
    ∀ s : ProtocolState, idsOk s → inboxAddressed s →
      idsOk ((executeNextRound pickIdx)^[k] s) ∧
      inboxAddressed ((executeNextRound pickIdx)^[k] s) := by
  induction k with
  | zero => intro s h1 h2; exact ⟨h1, h2⟩
  | succ k ih =>
      intro s h1 h2
      rw [Function.iterate_succ_apply]
      obtain ⟨h1', h2'⟩ := inv_step pickIdx s h1 h2
      exact ih _ h1' h2'

/-- C10: at every point of a run — after initialization, after the round-0
broadcast phase, after the round-0 echo phase and after any number of round
advances (finalization included) — every message in a party's inbox is
addressed to that party (`toNode` equals the party's id); deliveries only
reach the addressed recipient. -/
theorem C10_inbox_addressed (pickIdx : List Nat → Nat) (n f sv k : Nat)
    (sel : List Nat) :
    inboxAddressed (initializeProtocol n f sv sel) ∧
    inboxAddressed (round0Broadcast (initializeProtocol n f sv sel)) ∧
    inboxAddressed (runStart n f sv sel) ∧
    inboxAddressed ((executeNextRound pickIdx)^[k] (runStart n f sv sel)) := by
  have hinit : idsOk (initializeProtocol n f sv sel) ∧
      inboxAddressed (initializeProtocol n f sv sel) :=
    ⟨idsOk_init n f sv sel, inboxAddressed_init n f sv sel⟩
  have hbr := inv_round0Broadcast _ hinit.1 hinit.2
  have hrs : (runStart n f sv sel) =
      round0EchoPhase (round0Broadcast (initializeProtocol n f sv sel)) := rfl
  have hec := inv_round0EchoPhase _ hbr.1 hbr.2
  rw [← hrs] at hec
  have hit := inv_iterate pickIdx k _ hec.1 hec.2
  exact ⟨hinit.2, hbr.2, hec.2, hit.2⟩

/-- The `App` component's state before `initializeProtocol` has ever run:
the `useState` defaults (3 nodes requested, `f = 1`, sender value 7, round
counter 0, no nodes, no messages, not complete). -/
def preInitState : ProtocolState :=
  { numNodes := 3
    numByzantine := 1
    senderValue := 7
    currentRound := 0
    nodes := []
    allMessages := []
    protocolComplete := false }

/-- A state whose round counter (3) already exceeds `f + 1 = 2`, not yet
finalized. -/
def samplePastState : ProtocolState :=
  { numNodes := 1
    numByzantine := 1
    senderValue := 7
    currentRound := 3
    nodes := [sampleNodeC6]
    allMessages := []
    protocolComplete := false }

/-- C8 counterexample: advancing the round never fails — there is no
`OutOfSequenceError` anywhere in the engine.  Invoked with the round counter
past `f+1`, `executeNextRound` silently finalizes (it equals
`completeProtocol` on that state) and returns; invoked before
initialization, it processes a vacuous round and advances the counter to 1,
again without any error. -/
theorem C8_no_out_of_sequence_error :
    executeNextRound (fun _ => 0) samplePastState =
      completeProtocol (fun _ => 0) samplePastState ∧
    (executeNextRound (fun _ => 0) samplePastState).protocolComplete = true ∧
    (executeNextRound (fun _ => 0) preInitState).currentRound = 1 ∧
    (executeNextRound (fun _ => 0) preInitState).protocolComplete = false := by
  refine ⟨?_, ?_, ?_, ?_⟩ <;> rfl

/-- C8 amended: invoking `executeNextRound` when the round counter already
exceeds `f+1` does not fail with an error; it performs finalization itself
when the protocol is not yet complete, and otherwise returns the state
unchanged — afterwards the protocol is complete in either case. -/
theorem C8_past_final_round_finalizes (pickIdx : List Nat → Nat)
    (s : ProtocolState) (h : s.numByzantine + 1 < s.currentRound) :
    executeNextRound pickIdx s =
      (if s.protocolComplete then s else completeProtocol pickIdx s) ∧
    (executeNextRound pickIdx s).protocolComplete = true := by
  constructor
  · unfold executeNextRound
    rw [if_pos h]
  · by_cases hc : s.protocolComplete = true
    · unfold executeNextRound
      rw [if_pos h]
      simp only [hc, if_true]
    · have hc' : s.protocolComplete = false := by simpa using hc
      unfold executeNextRound
      rw [if_pos h]
      simp only [hc', Bool.false_eq_true, if_false]
      exact completeProtocol_complete _ _

theorem C8_past_final_round_finalizes_witness :
    samplePastState.numByzantine + 1 < samplePastState.currentRound ∧
    (executeNextRound (fun _ => 0) samplePastState =
      (if samplePastState.protocolComplete then samplePastState
       else completeProtocol (fun _ => 0) samplePastState) ∧
    (executeNextRound (fun _ => 0) samplePastState).protocolComplete = true) :=
  ⟨by decide,
    C8_past_final_round_finalizes (fun _ => 0) samplePastState (by decide)⟩

end DolevStrong
